import Mathlib

/-!
Verification of the RNN implementation in rnn-q5.py (class RNN).

The Python code operates on numpy arrays of float64.  We model the numeric
domain by an arbitrary field (instantiated at ℚ for executable checks and at
ℝ for the forward pass, which needs exp and log), vectors by lists, and
matrices by lists of row vectors.  Python/numpy indexing, including negative
indices wrapping from the end and the IndexError on indices that are still out
of bounds after wrapping, is modelled by the partial lookup `pyget`.  Methods
that can raise an IndexError are modelled as Option-valued functions; `none`
means the Python call raises.
-/

namespace RnnQ5

/-- Python-style list indexing: a negative index `i` means `len + i`; any index
that is out of bounds after this adjustment raises, modelled as `none`. -/
def pyget {β : Type} (l : List β) (i : ℤ) : Option β :=
  let j : ℤ := if i < 0 then (l.length : ℤ) + i else i
  if 0 ≤ j then l.get? j.toNat else none

section VecOps

variable {α : Type} [Field α]

/-- Elementwise sum of two vectors (numpy `a + b` on equal shapes). -/
def vecAdd (a b : List α) : List α := List.zipWith (· + ·) a b

/-- Elementwise difference of two vectors (numpy `a - b` on equal shapes). -/
def vecSub (a b : List α) : List α := List.zipWith (· - ·) a b

/-- Elementwise product of two vectors (numpy `a * b` on equal shapes). -/
def hadamard (a b : List α) : List α := List.zipWith (· * ·) a b

/-- The vector `1 - a`, elementwise. -/
def oneMinus (a : List α) : List α := a.map (fun z => 1 - z)

/-- Dot product (`np.dot` / `np.inner` of two vectors of equal length). -/
def dotV (a b : List α) : α := (List.zipWith (· * ·) a b).sum

/-- Matrix-vector product `np.dot(M, v)`, one dot product per row. -/
def matvec (M : List (List α)) (v : List α) : List α := M.map (fun row => dotV row v)

/-- Product with the transpose, `np.dot(M.T, v)`. -/
def matTvec (M : List (List α)) (v : List α) : List α := matvec M.transpose v

/-- Outer product `np.outer a b`. -/
def outer (a b : List α) : List (List α) := a.map (fun ai => b.map (fun bj => ai * bj))

/-- Elementwise matrix sum (the `+=` accumulations on equal shapes). -/
def matAdd (A B : List (List α)) : List (List α) := List.zipWith vecAdd A B

/-- Scalar multiple of a matrix (`learning_rate * delta`). -/
def matScale (c : α) (A : List (List α)) : List (List α) :=
  A.map (List.map (fun z => c * z))

/-- Modelled from the spec: the helper `make_onehot(index, dimension)` from the
rnnmath module, which is not part of the sources; per section 6 of the spec it
returns a zero vector of the given dimension with a 1 at `index`. -/
def make_onehot (i n : ℕ) : List α := (List.range n).map (fun j => if j = i then 1 else 0)

/-- The same-shaped zero matrix, `A.fill(0.0)`. -/
def zeroslike (A : List (List α)) : List (List α) := A.map (List.map (fun _ => (0 : α)))

end VecOps

/-- The state of the Python `RNN` object: the three fixed sizes, the weight
matrices `U`, `V`, `W` and the gradient accumulators `deltaU`, `deltaV`,
`deltaW` (rnn-q5.py lines 34-46). -/
structure RNN (α : Type) where
  vocab_size : ℕ
  hidden_dims : ℕ
  out_vocab_size : ℕ
  U : List (List α)
  V : List (List α)
  W : List (List α)
  deltaU : List (List α)
  deltaV : List (List α)
  deltaW : List (List α)
deriving DecidableEq, Repr

section Methods

variable {α : Type} [Field α]

/-- `RNN.apply_deltas` (rnn-q5.py lines 48-62): add `learning_rate` times each
accumulator into the corresponding weight matrix, then reset all three
accumulators to zero in place. -/
def apply_deltas (r : RNN α) (lr : α) : RNN α :=
  { r with
    U := matAdd r.U (matScale lr r.deltaU)
    W := matAdd r.W (matScale lr r.deltaW)
    V := matAdd r.V (matScale lr r.deltaV)
    deltaU := zeroslike r.deltaU
    deltaV := zeroslike r.deltaV
    deltaW := zeroslike r.deltaW }

/-- The body of the `acc_deltas` loop (rnn-q5.py lines 110-115) at time `t`:
`delta_out = onehot(d[t]) - y[t]`, `delta_in = (Wᵀ·delta_out) ⊙ s[t] ⊙ (1-s[t])`,
then accumulate the three outer products. -/
def accLevel (x d : List ℕ) (y s : List (List α)) (r : RNN α) (t : ℕ) : Option (RNN α) := do
  let dt ← pyget d (t : ℤ)
  let yt ← pyget y (t : ℤ)
  let st ← pyget s (t : ℤ)
  let delta_out := vecSub (make_onehot dt r.out_vocab_size) yt
  let delta_in := hadamard (hadamard (matTvec r.W delta_out) st) (oneMinus st)
  let xt ← pyget x (t : ℤ)
  let stm1 ← pyget s ((t : ℤ) - 1)
  pure { r with
    deltaW := matAdd r.deltaW (outer delta_out st)
    deltaV := matAdd r.deltaV (outer delta_in (make_onehot xt r.vocab_size))
    deltaU := matAdd r.deltaU (outer delta_in stm1) }

/-- `RNN.acc_deltas` (rnn-q5.py lines 90-116): run `accLevel` for
`t = len(x)-1` down to `0`. -/
def acc_deltas (r : RNN α) (x d : List ℕ) (y s : List (List α)) : Option (RNN α) :=
  (List.range x.length).reverse.foldlM (accLevel x d y s) r

/-- One iteration of the BPTT unrolling loop (rnn-q5.py lines 174-177, also
lines 214-217): propagate the hidden error one step further back,
`delta_in_t_tau ← (Uᵀ·delta_in_t_tau) ⊙ s[t-i] ⊙ (1-s[t-i])`, and accumulate
the two outer products into `deltaV` and `deltaU`.  The pair threads the
current `delta_in_t_tau` together with the RNN state. -/
def bpttUnroll (x : List ℕ) (s : List (List α)) (t : ℤ)
    (acc : List α × RNN α) (i : ℕ) : Option (List α × RNN α) := do
  let (dtau, r) := acc
  let sti ← pyget s (t - i)
  let dtau2 := hadamard (hadamard (matTvec r.U dtau) sti) (oneMinus sti)
  let xti ← pyget x (t - i)
  let stim1 ← pyget s (t - i - 1)
  pure (dtau2,
    { r with
      deltaV := matAdd r.deltaV (outer dtau2 (make_onehot xti r.vocab_size))
      deltaU := matAdd r.deltaU (outer dtau2 stim1) })

/-- The body of the `acc_deltas_bptt` loop (rnn-q5.py lines 165-183) at time
`t`.  Note that line 171, `steps = min([t, steps])`, rebinds the Python local
`steps`, so the bound carries over to the later (smaller) values of `t`; the
pair threads the RNN state together with that rebound `steps` value. -/
def bpttLevel (x d : List ℕ) (y s : List (List α)) :
    RNN α × ℕ → ℕ → Option (RNN α × ℕ)
  | (r, steps), t => do
  let dt ← pyget d (t : ℤ)
  let yt ← pyget y (t : ℤ)
  let st ← pyget s (t : ℤ)
  let delta_out := vecSub (make_onehot dt r.out_vocab_size) yt
  let delta_in := hadamard (hadamard (matTvec r.W delta_out) st) (oneMinus st)
  let eff := min t steps
  let p ← (List.range' 1 eff).foldlM (bpttUnroll x s (t : ℤ)) (delta_in, r)
  let xt ← pyget x (t : ℤ)
  let stm1 ← pyget s ((t : ℤ) - 1)
  pure ({ p.2 with
    deltaW := matAdd p.2.deltaW (outer delta_out st)
    deltaV := matAdd p.2.deltaV (outer delta_in (make_onehot xt r.vocab_size))
    deltaU := matAdd p.2.deltaU (outer delta_in stm1) }, eff)

/-- `RNN.acc_deltas_bptt` (rnn-q5.py lines 148-183): run `bpttLevel` for
`t = len(x)-1` down to `0`, threading the rebound `steps` local through the
iterations. -/
def acc_deltas_bptt (r : RNN α) (x d : List ℕ) (y s : List (List α))
    (steps : ℕ) : Option (RNN α) :=
  ((List.range x.length).reverse.foldlM (bpttLevel x d y s) (r, steps)).map Prod.fst

/-- Written from the spec's words for `acc_deltas_bptt` (spec section 4.1):
at each `t` let `effective_steps = min(t, steps)` with `steps` the caller's
original argument, unroll that many extra back-propagation steps, then do the
`t`-level accumulation.  Identical to `bpttLevel` except that no rebinding of
`steps` is threaded across time indices. -/
def bpttSpecLevel (steps0 : ℕ) (x d : List ℕ) (y s : List (List α))
    (r : RNN α) (t : ℕ) : Option (RNN α) := do
  let dt ← pyget d (t : ℤ)
  let yt ← pyget y (t : ℤ)
  let st ← pyget s (t : ℤ)
  let delta_out := vecSub (make_onehot dt r.out_vocab_size) yt
  let delta_in := hadamard (hadamard (matTvec r.W delta_out) st) (oneMinus st)
  let eff := min t steps0
  let p ← (List.range' 1 eff).foldlM (bpttUnroll x s (t : ℤ)) (delta_in, r)
  let xt ← pyget x (t : ℤ)
  let stm1 ← pyget s ((t : ℤ) - 1)
  pure { p.2 with
    deltaW := matAdd p.2.deltaW (outer delta_out st)
    deltaV := matAdd p.2.deltaV (outer delta_in (make_onehot xt r.vocab_size))
    deltaU := matAdd p.2.deltaU (outer delta_in stm1) }

/-- The spec-side reading of `acc_deltas_bptt`: every level uses
`min(t, steps)` with the caller's original `steps`. -/
def acc_deltas_bptt_spec (r : RNN α) (x d : List ℕ) (y s : List (List α))
    (steps : ℕ) : Option (RNN α) :=
  (List.range x.length).reverse.foldlM (bpttSpecLevel steps x d y s) r

/-- `RNN.acc_deltas_np` (rnn-q5.py lines 119-145): a single standard
back-propagation step at the last time step, reading `y[-1]`, `s[-2]`, `x[-1]`
and `s[-3]` (the local `t = len(x)-1` on line 138 is computed but unused). -/
def acc_deltas_np (r : RNN α) (x d : List ℕ) (y s : List (List α)) : Option (RNN α) := do
  let d0 ← pyget d 0
  let ym1 ← pyget y (-1)
  let sm2 ← pyget s (-2)
  let delta_out := vecSub (make_onehot d0 r.out_vocab_size) ym1
  let delta_in := hadamard (hadamard (matTvec r.W delta_out) sm2) (oneMinus sm2)
  let xm1 ← pyget x (-1)
  let sm3 ← pyget s (-3)
  pure { r with
    deltaW := matAdd r.deltaW (outer delta_out sm2)
    deltaV := matAdd r.deltaV (outer delta_in (make_onehot xm1 r.vocab_size))
    deltaU := matAdd r.deltaU (outer delta_in sm3) }

/-- `RNN.acc_deltas_bptt_np` (rnn-q5.py lines 186-222): BPTT unrolling from the
single level `t = len(x)-1` (an integer in Python, hence ℤ here: for an empty
`x` it is `-1` and the lookups wrap). -/
def acc_deltas_bptt_np (r : RNN α) (x d : List ℕ) (y s : List (List α))
    (steps : ℕ) : Option (RNN α) := do
  let t : ℤ := (x.length : ℤ) - 1
  let d0 ← pyget d 0
  let yt ← pyget y t
  let st ← pyget s t
  let delta_out := vecSub (make_onehot d0 r.out_vocab_size) yt
  let delta_in := hadamard (hadamard (matTvec r.W delta_out) st) (oneMinus st)
  let eff : ℤ := min t (steps : ℤ)
  let p ← (List.range' 1 eff.toNat).foldlM (bpttUnroll x s t) (delta_in, r)
  let xt ← pyget x t
  let stm1 ← pyget s (t - 1)
  pure { p.2 with
    deltaW := matAdd p.2.deltaW (outer delta_out st)
    deltaV := matAdd p.2.deltaV (outer delta_in (make_onehot xt r.vocab_size))
    deltaU := matAdd p.2.deltaU (outer delta_in stm1) }

/-- The in-place scaling `deltaU /= m; deltaV /= m; deltaW /= m` performed at
a batch boundary (rnn-q5.py lines 428-430 and 435-437). -/
def divAcc (r : RNN α) (m : ℕ) : RNN α :=
  { r with
    deltaU := r.deltaU.map (List.map (fun z => z / (m : α)))
    deltaV := r.deltaV.map (List.map (fun z => z / (m : α)))
    deltaW := r.deltaW.map (List.map (fun z => z / (m : α))) }

/-- One iteration of the instance loop inside an epoch of `train` (rnn-q5.py
lines 411-431) and of `train_np` (lines 551-571).  `accGrad i` stands for the
forward pass plus gradient accumulation for the instance at loop position `i`
(lines 417-425: the permutation lookup, `predict`, and `acc_deltas` or
`acc_deltas_bptt`), which only touches the three accumulators.  Whenever
`i % batch_size == 0` the accumulators are scaled by the batch size and
applied.  The second component is a ghost log recording each
(position, divisor) pair at which a scaled update was applied. -/
def batchStep (accGrad : ℕ → RNN α → RNN α) (b : ℕ) (lr : α)
    (st : RNN α × List (ℕ × ℕ)) (i : ℕ) : RNN α × List (ℕ × ℕ) :=
  let r2 := accGrad i st.1
  if i % b = 0 then (apply_deltas (divAcc r2 b) lr, st.2 ++ [(i, b)])
  else (r2, st.2)

/-- One full epoch pass over `n = len(X)` training instances (rnn-q5.py lines
411-438 and 551-578): the instance loop followed by the leftover update with
divisor `len(X) % batch_size` when `len(X) % batch_size > 0`. -/
def epochPass (accGrad : ℕ → RNN α → RNN α) (b : ℕ) (lr : α) (n : ℕ)
    (r : RNN α) : RNN α × List (ℕ × ℕ) :=
  let p := (List.range n).foldl (batchStep accGrad b lr) (r, [])
  if n % b ≠ 0 then (apply_deltas (divAcc p.1 (n % b)) lr, p.2 ++ [(n, n % b)])
  else p

end Methods

/-!
The epoch-level driver of `RNN.train` (rnn-q5.py lines 384-472) and
`RNN.train_np` (lines 524-631).

The driver is modelled over an abstract parameter type `π` (standing for the
triple of weight matrices), an abstract `update : ℕ → π → π` standing for one
full epoch pass over the shuffled training set at the given epoch index (lines
394-438: the annealed learning rate, the fresh random permutation — the source
of nondeterminism that forces the abstraction — and the instance loop embedded
concretely as `epochPass`), and an abstract `devLoss : π → 𝕜` standing for the
dev-set mean loss of the current parameters (lines 378 and 440).  Loss values
live in an arbitrary linearly ordered ring `𝕜`, which covers the reals that
model the Python floats and also admits directly computable instances.

Reference semantics of the snapshot: line 391 `bestU, bestV, bestW = self.U,
self.V, self.W` makes the initial "snapshot" an alias of the live arrays, which
the in-place `+=` of `apply_deltas` keeps mutating; only line 449 takes
independent copies (`self.U.copy()`).  We model the snapshot as an
`Option π`: `none` means "still the alias of the live parameters", and the
restore on line 470 therefore yields the live parameters themselves when no
copy was ever taken.  `lossLog` is a ghost field recording each completed
epoch's dev loss.
-/

/-- Python's builtin `abs` on a loss value (rnn-q5.py line 453). -/
def pyabs {𝕜 : Type} [LinearOrderedRing 𝕜] (z : 𝕜) : 𝕜 := if z < 0 then -z else z

/-- The loop state of `train`: live parameters, `prev_loss`,
`min_change_count` (initialized to -1 on line 386), `best_loss`, the
best-parameter snapshot (`none` = alias of the live parameters), `best_epoch`,
plus ghost fields counting completed epochs, recording whether the
minimal-change break was taken, and logging the dev loss of each epoch. -/
structure TrainSt (π 𝕜 : Type) where
  params : π
  prevLoss : 𝕜
  minChangeCount : ℤ
  bestLoss : 𝕜
  bestParams : Option π
  bestEpoch : ℕ
  epochsRun : ℕ
  convergedEarly : Bool
  lossLog : List 𝕜
deriving DecidableEq

/-- The state just before the epoch loop (rnn-q5.py lines 384-392), given the
initial parameters and the initial dev loss. -/
def initSt {π 𝕜 : Type} (p0 : π) (L0 : 𝕜) : TrainSt π 𝕜 :=
  ⟨p0, L0, -1, L0, none, 0, 0, false, []⟩

/-- The epoch loop of `train` (rnn-q5.py lines 394-461) over the list of
remaining epoch indices: run the epoch pass, compute the dev loss, update the
best-loss snapshot if the loss strictly improved (lines 447-450), update the
minimal-change counter (lines 453-456), and break when the counter exceeds 2
(lines 457-459), otherwise record `prev_loss = loss` and continue. -/
def runEpochs {π 𝕜 : Type} [LinearOrderedRing 𝕜] (update : ℕ → π → π)
    (devLoss : π → 𝕜) (mc : 𝕜) : List ℕ → TrainSt π 𝕜 → TrainSt π 𝕜
  | [], st => st
  | e :: rest, st =>
    let p2 := update e st.params
    let loss := devLoss p2
    let st2 : TrainSt π 𝕜 :=
      { params := p2
        prevLoss := st.prevLoss
        minChangeCount := if pyabs (st.prevLoss - loss) < mc then st.minChangeCount + 1 else 0
        bestLoss := if loss < st.bestLoss then loss else st.bestLoss
        bestParams := if loss < st.bestLoss then some p2 else st.bestParams
        bestEpoch := if loss < st.bestLoss then e else st.bestEpoch
        epochsRun := st.epochsRun + 1
        convergedEarly := st.convergedEarly
        lossLog := st.lossLog ++ [loss] }
    if st2.minChangeCount > 2 then { st2 with convergedEarly := true }
    else runEpochs update devLoss mc rest { st2 with prevLoss := loss }

/-- The epoch-level driver of `RNN.train` (rnn-q5.py lines 384-461): the
initial dev loss seeds `prev_loss` and `best_loss`, and the epoch loop runs
over `range(epochs)`. -/
def train {π 𝕜 : Type} [LinearOrderedRing 𝕜] (update : ℕ → π → π)
    (devLoss : π → 𝕜) (mc : 𝕜) (epochs : ℕ) (p0 : π) : TrainSt π 𝕜 :=
  runEpochs update devLoss mc (List.range epochs) (initSt p0 (devLoss p0))

/-- The parameters installed by `self.U, self.V, self.W = bestU, bestV, bestW`
(rnn-q5.py line 470): the snapshot if a copy was ever taken, else the live
(mutated) parameters that the initial binding still aliases. -/
def restoredParams {π 𝕜 : Type} (st : TrainSt π 𝕜) : π :=
  st.bestParams.getD st.params

/-- The loop state of `train_np`: as `TrainSt`, plus `bestAcc` for the Python
local `best_acc`, which is assigned only inside the improvement branch
(rnn-q5.py line 607) and is otherwise unbound (`none`). -/
structure TrainStNp (π 𝕜 : Type) where
  params : π
  prevLoss : 𝕜
  minChangeCount : ℤ
  bestLoss : 𝕜
  bestAcc : Option 𝕜
  bestParams : Option π
  epochsRun : ℕ
  lossLog : List 𝕜
deriving DecidableEq

/-- The epoch loop of `train_np` (rnn-q5.py lines 534-620): identical control
flow to `runEpochs`, additionally computing the dev accuracy each epoch and
assigning `best_acc` only on improvement. -/
def runEpochsNp {π 𝕜 : Type} [LinearOrderedRing 𝕜] (update : ℕ → π → π)
    (devLoss devAcc : π → 𝕜) (mc : 𝕜) : List ℕ → TrainStNp π 𝕜 → TrainStNp π 𝕜
  | [], st => st
  | e :: rest, st =>
    let p2 := update e st.params
    let loss := devLoss p2
    let acc := devAcc p2
    let st2 : TrainStNp π 𝕜 :=
      { params := p2
        prevLoss := st.prevLoss
        minChangeCount := if pyabs (st.prevLoss - loss) < mc then st.minChangeCount + 1 else 0
        bestLoss := if loss < st.bestLoss then loss else st.bestLoss
        bestAcc := if loss < st.bestLoss then some acc else st.bestAcc
        bestParams := if loss < st.bestLoss then some p2 else st.bestParams
        epochsRun := st.epochsRun + 1
        lossLog := st.lossLog ++ [loss] }
    if st2.minChangeCount > 2 then st2
    else runEpochsNp update devLoss devAcc mc rest { st2 with prevLoss := loss }

/-- The epoch-level driver of `RNN.train_np` (rnn-q5.py lines 524-631).  After
the loop, line 626 formats `best_acc` into the summary message; when no epoch
ever improved on the initial loss that local was never assigned, and the
lookup raises a NameError before the restore and the return — modelled by
`none`.  Otherwise the function restores the snapshot and returns
`best_loss`. -/
def train_np {π 𝕜 : Type} [LinearOrderedRing 𝕜] (update : ℕ → π → π)
    (devLoss devAcc : π → 𝕜) (mc : 𝕜) (epochs : ℕ) (p0 : π) : Option (𝕜 × π) :=
  let stf := runEpochsNp update devLoss devAcc mc (List.range epochs)
    ⟨p0, devLoss p0, -1, devLoss p0, none, none, 0, []⟩
  match stf.bestAcc with
  | none => none
  | some _ => some (stf.bestLoss, stf.bestParams.getD stf.params)

/-!
The forward pass and the loss functions, over ℝ.  The elementwise primitives
`sigmoid` and `softmax` live in the rnnmath module, which is not part of the
sources; they are modelled from the spec (section 6).
-/

/-- Modelled from the spec: `sigmoid` from the missing rnnmath module, the
elementwise logistic function (spec section 6). -/
noncomputable def sigmoid (z : ℝ) : ℝ := 1 / (1 + Real.exp (-z))

/-- Modelled from the spec: `softmax` from the missing rnnmath module, the
elementwise exponential normalized to sum 1 (spec section 6). -/
noncomputable def softmax (v : List ℝ) : List ℝ :=
  v.map (fun a => Real.exp a / (v.map Real.exp).sum)

/-- One step of the hidden recurrence (rnn-q5.py lines 84-85):
`sigmoid(U·s[t-1] + V·onehot(x[t]))` elementwise. -/
noncomputable def predictStep (r : RNN ℝ) (sprev : List ℝ) (xt : ℕ) : List ℝ :=
  (vecAdd (matvec r.U sprev) (matvec r.V (make_onehot xt r.vocab_size))).map sigmoid

/-- The rows `s[0], ..., s[len(x)-1]` filled by the loop in `predict`
(rnn-q5.py lines 82-87), starting from the previous hidden state `sprev`. -/
noncomputable def predictStates (r : RNN ℝ) : List ℕ → List ℝ → List (List ℝ)
  | [], _ => []
  | xt :: rest, sprev =>
    let st := predictStep r sprev xt
    st :: predictStates r rest st

/-- `RNN.predict` (rnn-q5.py lines 64-88).  `s` is allocated with `len(x)+1`
zero rows; the loop fills rows `0..len(x)-1`, so the final row stays zero — it
is the row that the wrapped index `s[t-1] = s[-1]` reads at `t = 0`.  `y` has
one softmax row per input position. -/
noncomputable def predict (r : RNN ℝ) (x : List ℕ) : List (List ℝ) × List (List ℝ) :=
  let states := predictStates r x (List.replicate r.hidden_dims 0)
  (states.map (fun st => softmax (matvec r.W st)),
   states ++ [List.replicate r.hidden_dims 0])

/-- `RNN.compute_loss` (rnn-q5.py lines 225-247): predict, then subtract
`np.inner(onehot(d[t]), np.log(y[t]))` from the running loss for each `t`. -/
noncomputable def compute_loss (r : RNN ℝ) (x d : List ℕ) : Option ℝ :=
  (List.range x.length).foldlM
    (fun (loss : ℝ) (t : ℕ) => do
      let dt ← pyget d (t : ℤ)
      let yt ← pyget (predict r x).1 (t : ℤ)
      pure (loss - dotV (make_onehot dt r.out_vocab_size) (yt.map Real.log)))
    0

/-- The closed form of `compute_loss` on in-range inputs:
`-Σ_t ⟨onehot(d[t]), log y[t]⟩`. -/
noncomputable def lossSum (r : RNN ℝ) (x d : List ℕ) : ℝ :=
  -((List.range x.length).map (fun t =>
      dotV (make_onehot (d.getD t 0) r.out_vocab_size)
        (((predict r x).1.getD t []).map Real.log))).sum

/-- `RNN.compute_mean_loss` (rnn-q5.py lines 316-335): accumulate
`total_length += len(X[i])` and `mean_loss += compute_loss(X[i], D[i])` over
`i in range(len(X))`, then divide. -/
noncomputable def compute_mean_loss (r : RNN ℝ) (X D : List (List ℕ)) : Option ℝ := do
  let p ← (List.range X.length).foldlM
    (fun (st : ℕ × ℝ) (i : ℕ) => do
      let xi ← pyget X (i : ℤ)
      let di ← pyget D (i : ℤ)
      let l ← compute_loss r xi di
      pure (st.1 + xi.length, st.2 + l))
    ((0 : ℕ), (0 : ℝ))
  pure (p.2 / (p.1 : ℝ))

/-! Basic lemmas about `pyget` and entrywise lookups. -/

theorem pyget_natCast {β : Type} (l : List β) (n : ℕ) : pyget l (n : ℤ) = l.get? n := by
  have h1 : ¬ ((n : ℤ) < 0) := by omega
  have h2 : (0 : ℤ) ≤ (n : ℤ) := by omega
  have h3 : ((n : ℤ)).toNat = n := by omega
  simp only [pyget, if_neg h1, if_pos h2, h3]

theorem pyget_neg {β : Type} (l : List β) (k : ℕ) (h1 : 0 < k) (h2 : k ≤ l.length) :
    pyget l (-(k : ℤ)) = l.get? (l.length - k) := by
  have hneg : (-(k : ℤ)) < 0 := by omega
  have hj : (0 : ℤ) ≤ (l.length : ℤ) + -(k : ℤ) := by omega
  have ht : ((l.length : ℤ) + -(k : ℤ)).toNat = l.length - k := by omega
  simp only [pyget, if_pos hneg, if_pos hj, ht]

theorem pyget_neg_none {β : Type} (l : List β) (k : ℕ) (h : l.length < k) :
    pyget l (-(k : ℤ)) = none := by
  have hneg : (-(k : ℤ)) < 0 := by omega
  have hj : ¬ (0 : ℤ) ≤ (l.length : ℤ) + -(k : ℤ) := by omega
  simp only [pyget, if_pos hneg, if_neg hj]

section EntryLemmas

variable {α : Type} [Field α]

theorem getD_vecAdd (a : List α) :
    ∀ (b : List α), a.length = b.length →
      ∀ j, (vecAdd a b).getD j 0 = a.getD j 0 + b.getD j 0 := by
  induction a with
  | nil =>
    intro b hb j
    have hb2 : b = [] := by cases b <;> simp_all
    subst hb2
    simp [vecAdd]
  | cons z a ih =>
    intro b hb j
    cases b with
    | nil => simp at hb
    | cons w b =>
      cases j with
      | zero => simp [vecAdd]
      | succ j => simpa [vecAdd] using ih b (by simpa using hb) j

theorem getD_map_scale (c : α) (a : List α) :
    ∀ j, (a.map (fun z => c * z)).getD j 0 = c * a.getD j 0 := by
  induction a with
  | nil => intro j; simp
  | cons z a ih =>
    intro j
    cases j with
    | zero => simp
    | succ j => simpa using ih j

theorem getD_matAdd_row (A : List (List α)) :
    ∀ (B : List (List α)), A.length = B.length →
      ∀ i, (matAdd A B).getD i [] = vecAdd (A.getD i []) (B.getD i []) := by
  induction A with
  | nil =>
    intro B hB i
    have hB2 : B = [] := by cases B <;> simp_all
    subst hB2
    simp [matAdd, vecAdd]
  | cons row A ih =>
    intro B hB i
    cases B with
    | nil => simp at hB
    | cons brow B =>
      cases i with
      | zero => simp [matAdd]
      | succ i => simpa [matAdd] using ih B (by simpa using hB) i

theorem getD_matScale_row (c : α) (A : List (List α)) :
    ∀ i, (matScale c A).getD i [] = (A.getD i []).map (fun z => c * z) := by
  induction A with
  | nil => intro i; simp [matScale]
  | cons row A ih =>
    intro i
    cases i with
    | zero => simp [matScale]
    | succ i => simpa [matScale] using ih i

end EntryLemmas

/-- C7.  `apply_deltas(learning_rate)` adds `learning_rate` times each
accumulator into the matching weight matrix, entrywise, and afterwards all
three accumulators are zero matrices of their previous shapes, whatever they
contained before the call (rnn-q5.py lines 48-62).  The shape hypotheses say
that each accumulator has the shape of its weight matrix, as guaranteed by the
constructor. -/
theorem apply_deltas_spec {α : Type} [Field α] (r : RNN α) (lr : α)
    (hU : r.deltaU.length = r.U.length)
    (hV : r.deltaV.length = r.V.length)
    (hW : r.deltaW.length = r.W.length)
    (hUr : ∀ i, (r.deltaU.getD i []).length = (r.U.getD i []).length)
    (hVr : ∀ i, (r.deltaV.getD i []).length = (r.V.getD i []).length)
    (hWr : ∀ i, (r.deltaW.getD i []).length = (r.W.getD i []).length) :
    (∀ i j, ((apply_deltas r lr).U.getD i []).getD j 0
        = (r.U.getD i []).getD j 0 + lr * ((r.deltaU.getD i []).getD j 0)) ∧
    (∀ i j, ((apply_deltas r lr).V.getD i []).getD j 0
        = (r.V.getD i []).getD j 0 + lr * ((r.deltaV.getD i []).getD j 0)) ∧
    (∀ i j, ((apply_deltas r lr).W.getD i []).getD j 0
        = (r.W.getD i []).getD j 0 + lr * ((r.deltaW.getD i []).getD j 0)) ∧
    (∀ row ∈ (apply_deltas r lr).deltaU, ∀ z ∈ row, z = 0) ∧
    (∀ row ∈ (apply_deltas r lr).deltaV, ∀ z ∈ row, z = 0) ∧
    (∀ row ∈ (apply_deltas r lr).deltaW, ∀ z ∈ row, z = 0) ∧
    (apply_deltas r lr).deltaU.length = r.deltaU.length ∧
    (apply_deltas r lr).deltaV.length = r.deltaV.length ∧
    (apply_deltas r lr).deltaW.length = r.deltaW.length := by
  have hzero : ∀ (A : List (List α)), ∀ row ∈ zeroslike A, ∀ z ∈ row, z = 0 := by
    intro A row hrow z hz
    simp only [zeroslike, List.mem_map] at hrow
    obtain ⟨r0, _, rfl⟩ := hrow
    simp only [List.mem_map] at hz
    obtain ⟨a, _, rfl⟩ := hz
    rfl
  have hlen : ∀ (M D : List (List α)) (h : D.length = M.length)
      (hr : ∀ i, (D.getD i []).length = (M.getD i []).length),
      ∀ i j, ((matAdd M (matScale lr D)).getD i []).getD j 0
        = (M.getD i []).getD j 0 + lr * ((D.getD i []).getD j 0) := by
    intro M D h hr i j
    rw [getD_matAdd_row M (matScale lr D) (by simp [matScale, h]) i,
      getD_matScale_row,
      getD_vecAdd _ _ (by rw [List.length_map]; exact (hr i).symm) j, getD_map_scale]
  refine ⟨hlen r.U r.deltaU hU hUr, hlen r.V r.deltaV hV hVr, hlen r.W r.deltaW hW hWr,
    hzero r.deltaU, hzero r.deltaV, hzero r.deltaW, ?_, ?_, ?_⟩ <;>
    simp [apply_deltas, zeroslike]

/-- A concrete RNN over ℚ used to check satisfiability of hypotheses. -/
def rQ : RNN ℚ := ⟨1, 1, 1, [[0]], [[0]], [[1]], [[0]], [[0]], [[0]]⟩

theorem apply_deltas_spec_witness :
    ((apply_deltas rQ 2).U.getD 0 []).getD 0 0
      = ((rQ.U.getD 0 []).getD 0 0) + 2 * ((rQ.deltaU.getD 0 []).getD 0 0) :=
  (apply_deltas_spec rQ 2 (by decide) (by decide) (by decide)
    (fun i => by cases i <;> rfl) (fun i => by cases i <;> rfl)
    (fun i => by cases i <;> rfl)).1 0 0

/-! C6: the batch-boundary structure of the instance loop. -/

theorem batchStep_log {α : Type} [Field α] (accGrad : ℕ → RNN α → RNN α)
    (b : ℕ) (lr : α) :
    ∀ (l : List ℕ) (r : RNN α) (log0 : List (ℕ × ℕ)),
      (l.foldl (batchStep accGrad b lr) (r, log0)).2
        = log0 ++ (l.filter (fun i => decide (i % b = 0))).map (fun i => (i, b)) := by
  intro l
  induction l with
  | nil => intro r log0; simp
  | cons i l ih =>
    intro r log0
    by_cases h : i % b = 0
    · simp [batchStep, h, ih]
    · simp [batchStep, h, ih]

/-- C6.  During an epoch pass over `n` instances, the accumulators are scaled
and applied exactly at the 0-indexed positions `i` with `i % batch_size == 0`
(including `i = 0`), each with divisor `batch_size`, followed by one extra
scaled update with divisor `n % batch_size` exactly when `n % batch_size ≠ 0`
(rnn-q5.py lines 411-438 and 551-578).  The ghost log of `epochPass` records
each (position, divisor) pair at which `apply_deltas` ran on the scaled
accumulators. -/
theorem epoch_updates_at_batch_boundaries {α : Type} [Field α]
    (accGrad : ℕ → RNN α → RNN α) (b : ℕ) (lr : α) (n : ℕ) (r : RNN α)
    (hb : 0 < b) :
    (epochPass accGrad b lr n r).2
      = ((List.range n).filter (fun i => decide (i % b = 0))).map (fun i => (i, b))
        ++ (if n % b ≠ 0 then [(n, n % b)] else []) := by
  unfold epochPass
  by_cases h : n % b = 0
  · simp [h, batchStep_log]
  · simp [h, batchStep_log]

theorem epoch_updates_at_batch_boundaries_witness :
    (epochPass (fun _ r => r) 2 (1 : ℚ) 3 rQ).2 = [(0, 2), (2, 2), (3, 1)] := by
  rw [epoch_updates_at_batch_boundaries (fun _ r => r) 2 (1 : ℚ) 3 rQ (by decide)]
  decide

/-! C4, C5, C9: the epoch-level driver. -/

/-- C4.  The code stops via the minimal-change branch only after the fourth
consecutive small-change epoch, not the third: `min_change_count` starts at -1
(rnn-q5.py line 386), so after three small-change epochs it is 2, and the
break condition `min_change_count > 2` (line 457) first holds at the fourth.
Here every epoch's loss change is 0, far below `min_change = 10^9`, and the
run of ten allowed epochs stops early — after four epochs, not three. -/
theorem train_minchange_runs_four_epochs :
    (train (fun _ (p : ℤ) => p) (fun _ => (0 : ℤ)) 1000000000 10 0).epochsRun = 4 ∧
    (train (fun _ (p : ℤ) => p) (fun _ => (0 : ℤ)) 1000000000 10 0).convergedEarly = true ∧
    ¬ (train (fun _ (p : ℤ) => p) (fun _ => (0 : ℤ)) 1000000000 10 0).epochsRun = 3 := by
  decide

/-- C5 counterexample.  A run in which every epoch's dev loss equals the
initial loss (so no epoch improves strictly) and every epoch pass changes the
parameters: the snapshot is never copied, and the parameters installed at the
end are the mutated live parameters `4`, not the initial parameters `0`. -/
theorem train_restore_differs_from_initial_counterexample :
    (train (fun _ (p : ℤ) => p + 1) (fun _ => (0 : ℤ)) 1 10 0).bestParams = none ∧
    restoredParams (train (fun _ (p : ℤ) => p + 1) (fun _ => (0 : ℤ)) 1 10 0) = 4 ∧
    (4 : ℤ) ≠ 0 := by
  decide

theorem runEpochs_no_improvement {π 𝕜 : Type} [LinearOrderedRing 𝕜]
    (update : ℕ → π → π) (devLoss : π → 𝕜) (mc L0 : 𝕜)
    (h : ∀ p, L0 ≤ devLoss p) :
    ∀ (es : List ℕ) (st : TrainSt π 𝕜), st.bestLoss = L0 → st.bestParams = none →
      (runEpochs update devLoss mc es st).bestLoss = L0 ∧
      (runEpochs update devLoss mc es st).bestParams = none := by
  intro es
  induction es with
  | nil => intro st h1 h2; simpa [runEpochs] using ⟨h1, h2⟩
  | cons e rest ih =>
    intro st h1 h2
    have hnlt : ¬ devLoss (update e st.params) < st.bestLoss := by
      rw [h1]; exact not_lt.mpr (h _)
    rw [runEpochs]
    simp only [if_neg hnlt]
    split <;> split
    · exact ⟨h1, h2⟩
    · exact ih _ h1 h2
    · exact ⟨h1, h2⟩
    · exact ih _ h1 h2

/-- C5 as amended.  The snapshot taken at training start aliases the live
parameters rather than copying them, and an independent copy is taken only
when an epoch's dev loss is strictly below the best seen; consequently, in a
run in which no epoch's dev loss is strictly below the initial dev loss, the
parameters installed at the end are the final (mutated) live parameters, not
the initial ones, and the reported best loss is the initial dev loss. -/
theorem train_no_improvement_restores_live_params {π 𝕜 : Type}
    [LinearOrderedRing 𝕜] (update : ℕ → π → π) (devLoss : π → 𝕜) (mc : 𝕜)
    (epochs : ℕ) (p0 : π) (h : ∀ p, devLoss p0 ≤ devLoss p) :
    (train update devLoss mc epochs p0).bestParams = none ∧
    (train update devLoss mc epochs p0).bestLoss = devLoss p0 ∧
    restoredParams (train update devLoss mc epochs p0)
      = (train update devLoss mc epochs p0).params := by
  have hrun := runEpochs_no_improvement update devLoss mc (devLoss p0) h
    (List.range epochs) (initSt p0 (devLoss p0)) rfl rfl
  refine ⟨hrun.2, hrun.1, ?_⟩
  simp [restoredParams, train] at hrun ⊢
  rw [hrun.2]
  rfl

theorem train_no_improvement_restores_live_params_witness :
    (train (fun _ (p : ℤ) => p + 1) (fun _ => (2 : ℤ)) 1 5 0).bestParams = none ∧
    (train (fun _ (p : ℤ) => p + 1) (fun _ => (2 : ℤ)) 1 5 0).bestLoss = 2 ∧
    restoredParams (train (fun _ (p : ℤ) => p + 1) (fun _ => (2 : ℤ)) 1 5 0)
      = (train (fun _ (p : ℤ) => p + 1) (fun _ => (2 : ℤ)) 1 5 0).params :=
  train_no_improvement_restores_live_params (fun _ p => p + 1) (fun _ => (2 : ℤ))
    1 5 0 (fun _ => le_refl 2)

/-- C9.  `train` ends normally (its model is a total function) and returns the
best observed dev loss; `train_np`, however, formats the local `best_acc` into
its final summary (rnn-q5.py line 626), and that local is assigned only when
an epoch improves on the best loss (line 607) — in a run whose every epoch
keeps the dev loss at the initial value, `train_np` dies with a NameError
before restoring or returning, modelled by `none`. -/
theorem train_np_crashes_without_improvement :
    train_np (fun _ (p : ℤ) => p + 1) (fun _ => (0 : ℤ)) (fun _ => 0) 1 10 0
      = none ∧
    (train (fun _ (p : ℤ) => p + 1) (fun _ => (0 : ℤ)) 1 10 0).bestLoss = 0 ∧
    (train (fun _ (p : ℤ) => p + 1) (fun _ => (0 : ℤ)) 1 10 0).lossLog
      = [0, 0, 0, 0] := by
  decide

/-! C2: `acc_deltas` agrees with `acc_deltas_bptt` at `steps = 0`. -/

theorem bpttLevel_zero {α : Type} [Field α] (x d : List ℕ) (y s : List (List α))
    (r : RNN α) (t : ℕ) :
    bpttLevel x d y s (r, 0) t = (accLevel x d y s r t).map (fun r2 => (r2, 0)) := by
  rcases hd : pyget d (t : ℤ) with _ | dt <;>
    rcases hy : pyget y (t : ℤ) with _ | yt <;>
      rcases hs : pyget s (t : ℤ) with _ | st <;>
        rcases hx : pyget x (t : ℤ) with _ | xt <;>
          rcases hs1 : pyget s ((t : ℤ) - 1) with _ | stm1 <;>
            simp [bpttLevel, accLevel, hd, hy, hs, hx, hs1]

theorem acc_fold_zero {α : Type} [Field α] (x d : List ℕ) (y s : List (List α)) :
    ∀ (l : List ℕ) (r : RNN α),
      ((l.foldlM (bpttLevel x d y s) (r, 0)).map Prod.fst)
        = l.foldlM (accLevel x d y s) r := by
  intro l
  induction l with
  | nil => intro r; simp
  | cons t l ih =>
    intro r
    rw [List.foldlM_cons, List.foldlM_cons, bpttLevel_zero]
    cases h : accLevel x d y s r t with
    | none => simp [h]
    | some r2 => simp [h, ih]

theorem accLevel_preserves {α : Type} [Field α] (x d : List ℕ) (y s : List (List α))
    (r : RNN α) (t : ℕ) (r2 : RNN α) (h : accLevel x d y s r t = some r2) :
    r2.U = r.U ∧ r2.V = r.V ∧ r2.W = r.W := by
  rcases hd : pyget d (t : ℤ) with _ | dt <;>
    rcases hy : pyget y (t : ℤ) with _ | yt <;>
      rcases hs : pyget s (t : ℤ) with _ | st <;>
        rcases hx : pyget x (t : ℤ) with _ | xt <;>
          rcases hs1 : pyget s ((t : ℤ) - 1) with _ | stm1 <;>
            simp [accLevel, hd, hy, hs, hx, hs1] at h <;>
              simp [← h]

theorem acc_deltas_fold_preserves {α : Type} [Field α] (x d : List ℕ)
    (y s : List (List α)) :
    ∀ (l : List ℕ) (r r2 : RNN α), l.foldlM (accLevel x d y s) r = some r2 →
      r2.U = r.U ∧ r2.V = r.V ∧ r2.W = r.W := by
  intro l
  induction l with
  | nil =>
    intro r r2 h
    have h2 : some r = some r2 := h
    cases h2
    exact ⟨rfl, rfl, rfl⟩
  | cons t l ih =>
    intro r r2 h
    rw [List.foldlM_cons] at h
    cases ha : accLevel x d y s r t with
    | none => rw [ha] at h; simp at h
    | some rmid =>
      rw [ha] at h
      have h3 : l.foldlM (accLevel x d y s) rmid = some r2 := h
      have h1 := accLevel_preserves x d y s r t rmid ha
      have h2 := ih rmid r2 h3
      exact ⟨h2.1.trans h1.1, h2.2.1.trans h1.2.1, h2.2.2.trans h1.2.2⟩

/-- C2.  For every input, target and trace, `acc_deltas(x, d, y, s)` computes
exactly what `acc_deltas_bptt(x, d, y, s, 0)` computes (including agreement on
which inputs raise), and the call changes only the accumulators, never `U`,
`V`, `W` (rnn-q5.py lines 90-116 and 148-183). -/
theorem acc_deltas_eq_acc_deltas_bptt_zero {α : Type} [Field α] (r : RNN α)
    (x d : List ℕ) (y s : List (List α)) :
    acc_deltas r x d y s = acc_deltas_bptt r x d y s 0 ∧
    ∀ r2, acc_deltas r x d y s = some r2 →
      r2.U = r.U ∧ r2.V = r.V ∧ r2.W = r.W := by
  constructor
  · rw [acc_deltas, acc_deltas_bptt, acc_fold_zero]
  · intro r2 h
    exact acc_deltas_fold_preserves x d y s _ r r2 h

/-- The result of `acc_deltas rQ [0] [0] [[0]] [[1], [0]]`: only `deltaW`
changes, by the outer product `[1]·[1]ᵀ`. -/
def rQ2 : RNN ℚ := ⟨1, 1, 1, [[0]], [[0]], [[1]], [[0]], [[0]], [[1]]⟩

theorem acc_deltas_eq_acc_deltas_bptt_zero_witness :
    acc_deltas rQ [0] [0] [[0]] [[1], [0]]
      = acc_deltas_bptt rQ [0] [0] [[0]] [[1], [0]] 0 ∧
    rQ2.U = rQ.U ∧ rQ2.V = rQ.V ∧ rQ2.W = rQ.W :=
  ⟨(acc_deltas_eq_acc_deltas_bptt_zero rQ [0] [0] [[0]] [[1], [0]]).1,
   (acc_deltas_eq_acc_deltas_bptt_zero rQ [0] [0] [[0]] [[1], [0]]).2 rQ2 (by
      have ht : ([[(1 : ℚ)]]).transpose = [[1]] := rfl
      have hr1 : List.range 1 = [0] := rfl
      simp [acc_deltas, accLevel, pyget, rQ, rQ2, vecSub, make_onehot, hadamard,
        matTvec, matvec, dotV, oneMinus, outer, matAdd, vecAdd, hr1, ht])⟩

/-! C1: the rebinding of `steps` on rnn-q5.py line 171 never changes the
effective unroll depth, which stays `min(t, steps)` for the caller's original
`steps`. -/

theorem bpttLevel_spec_congr {α : Type} [Field α] (x d : List ℕ)
    (y s : List (List α)) (r : RNN α) (t st steps0 : ℕ)
    (h : min t st = min t steps0) :
    bpttLevel x d y s (r, st) t
      = (bpttSpecLevel steps0 x d y s r t).map (fun r2 => (r2, min t steps0)) := by
  simp only [bpttLevel, bpttSpecLevel]
  rw [h]
  rcases hd : pyget d (t : ℤ) with _ | dt <;>
    rcases hy : pyget y (t : ℤ) with _ | yt <;>
      rcases hs : pyget s (t : ℤ) with _ | st1 <;> simp [hd, hy, hs]

theorem bptt_fold_congr {α : Type} [Field α] (x d : List ℕ)
    (y s : List (List α)) (steps0 : ℕ) :
    ∀ (n : ℕ) (r : RNN α) (st : ℕ), (∀ t, t < n → min t st = min t steps0) →
      (((List.range n).reverse.foldlM (bpttLevel x d y s) (r, st)).map Prod.fst)
        = (List.range n).reverse.foldlM (bpttSpecLevel steps0 x d y s) r := by
  intro n
  induction n with
  | zero => intro r st _; simp
  | succ n ih =>
    intro r st hmin
    rw [List.range_succ, List.reverse_append, List.reverse_singleton]
    simp only [List.singleton_append, List.foldlM_cons]
    rw [bpttLevel_spec_congr x d y s r n st steps0 (hmin n (Nat.lt_succ_self n))]
    cases hlev : bpttSpecLevel steps0 x d y s r n with
    | none => rfl
    | some r2 => exact ih r2 (min n steps0) (fun t ht => by omega)

/-- C1.  Although rnn-q5.py line 171 rebinds the local `steps` to
`min(t, steps)` inside the loop over descending `t`, the effective number of
extra unrolled BPTT steps performed at each time level `t` is exactly
`min(t, steps)` for the caller's original `steps` argument, with each unrolled
step and the base accumulation as the spec states them: `acc_deltas_bptt`
coincides with the spec-side reading that applies `min(t, steps)` to the
original argument at every level (rnn-q5.py lines 165-183). -/
theorem acc_deltas_bptt_uses_original_steps {α : Type} [Field α] (r : RNN α)
    (x d : List ℕ) (y s : List (List α)) (steps : ℕ) :
    acc_deltas_bptt r x d y s steps = acc_deltas_bptt_spec r x d y s steps := by
  rw [acc_deltas_bptt, acc_deltas_bptt_spec,
    bptt_fold_congr x d y s steps x.length r steps (fun t _ => rfl)]

/-! C10: which sequence lengths `acc_deltas_np` can handle. -/

theorem pyget_zero {β : Type} (l : List β) : pyget l 0 = l.get? 0 := by
  simp [pyget]

/-- C10.  On a trace `s` of the shape `predict` returns (`len(x) + 1` rows),
`acc_deltas_np` reads `s[-2]` and `s[-3]`; for `len(x) ≥ 2` those are the rows
`s[t]` and `s[t-1]` at the final step `t = len(x) - 1` and the call succeeds,
but for a length-1 sequence `s` has only two rows, `s[-3]` is out of bounds
even after wrapping, and the call raises — while `acc_deltas` and
`acc_deltas_bptt_np` handle length-1 sequences through the zero boundary row
`s[-1]` (rnn-q5.py lines 119-145, 90-116 and 186-222). -/
theorem acc_deltas_np_requires_two_steps {α : Type} [Field α] (r : RNN α)
    (x d : List ℕ) (y s : List (List α)) (hs : s.length = x.length + 1) :
    (2 ≤ x.length → d ≠ [] → y ≠ [] →
       pyget s (-2) = s.get? (x.length - 1) ∧
       pyget s (-3) = s.get? (x.length - 2) ∧
       (acc_deltas_np r x d y s).isSome) ∧
    (x.length = 1 → pyget s (-3) = none ∧ acc_deltas_np r x d y s = none) ∧
    (x.length = 1 → d ≠ [] → y ≠ [] →
       (acc_deltas r x d y s).isSome ∧
       ∀ steps, (acc_deltas_bptt_np r x d y s steps).isSome) := by
  refine ⟨?_, ?_, ?_⟩
  · intro hL hd hy
    have hm2 : pyget s (-2) = s.get? (x.length - 1) := by
      have h2 := pyget_neg s 2 (by omega) (by omega)
      rw [show ((2:ℕ) : ℤ) = (2 : ℤ) from rfl] at h2
      rw [h2, show s.length - 2 = x.length - 1 by omega]
    have hm3 : pyget s (-3) = s.get? (x.length - 2) := by
      have h3 := pyget_neg s 3 (by omega) (by omega)
      rw [show ((3:ℕ) : ℤ) = (3 : ℤ) from rfl] at h3
      rw [h3, show s.length - 3 = x.length - 2 by omega]
    refine ⟨hm2, hm3, ?_⟩
    obtain ⟨dv, hdv⟩ : ∃ a, pyget d 0 = some a := by
      rw [pyget_zero]
      exact ⟨_, List.get?_eq_get (List.length_pos.mpr hd)⟩
    obtain ⟨yv, hyv⟩ : ∃ a, pyget y (-1) = some a := by
      have h1 := pyget_neg y 1 (by omega) (List.length_pos.mpr hy)
      rw [show ((1:ℕ) : ℤ) = (1 : ℤ) from rfl] at h1
      rw [h1]
      exact ⟨_, List.get?_eq_get (by have := List.length_pos.mpr hy; omega)⟩
    obtain ⟨s2, hs2⟩ : ∃ a, pyget s (-2) = some a := by
      rw [hm2]
      exact ⟨_, List.get?_eq_get (by omega)⟩
    obtain ⟨xv, hxv⟩ : ∃ a, pyget x (-1) = some a := by
      have h1 := pyget_neg x 1 (by omega) (by omega)
      rw [show ((1:ℕ) : ℤ) = (1 : ℤ) from rfl] at h1
      rw [h1]
      exact ⟨_, List.get?_eq_get (by omega)⟩
    obtain ⟨s3, hs3⟩ : ∃ a, pyget s (-3) = some a := by
      rw [hm3]
      exact ⟨_, List.get?_eq_get (by omega)⟩
    simp [acc_deltas_np, hdv, hyv, hs2, hxv, hs3]
  · intro hL
    have hs3 : pyget s (-3) = none := by
      have h3 := pyget_neg_none s 3 (by omega)
      rw [show ((3:ℕ) : ℤ) = (3 : ℤ) from rfl] at h3
      exact h3
    refine ⟨hs3, ?_⟩
    rcases hdv : pyget d 0 with _ | dv <;>
      rcases hyv : pyget y (-1) with _ | yv <;>
        rcases hs2 : pyget s (-2) with _ | s2 <;>
          rcases hxv : pyget x (-1) with _ | xv <;>
            simp [acc_deltas_np, hdv, hyv, hs2, hxv, hs3]
  · intro hL hd hy
    have hslen : s.length = 2 := by omega
    obtain ⟨dv, hdv⟩ : ∃ a, pyget d (0 : ℤ) = some a := by
      rw [pyget_zero]
      exact ⟨_, List.get?_eq_get (List.length_pos.mpr hd)⟩
    obtain ⟨yv, hyv⟩ : ∃ a, pyget y (0 : ℤ) = some a := by
      rw [pyget_zero]
      exact ⟨_, List.get?_eq_get (List.length_pos.mpr hy)⟩
    obtain ⟨sv, hsv⟩ : ∃ a, pyget s (0 : ℤ) = some a := by
      rw [pyget_zero]
      exact ⟨_, List.get?_eq_get (by omega)⟩
    obtain ⟨xv, hxv⟩ : ∃ a, pyget x (0 : ℤ) = some a := by
      rw [pyget_zero]
      exact ⟨_, List.get?_eq_get (by omega)⟩
    obtain ⟨sm, hsm⟩ : ∃ a, pyget s (-1 : ℤ) = some a := by
      have h1 := pyget_neg s 1 (by omega) (by omega)
      rw [show (-((1:ℕ) : ℤ)) = (-1 : ℤ) by norm_num] at h1
      rw [h1]
      exact ⟨_, List.get?_eq_get (by omega)⟩
    constructor
    · have hrange : (List.range x.length).reverse = [0] := by rw [hL]; rfl
      rw [acc_deltas, hrange]
      simp [List.foldlM, accLevel, hdv, hyv, hsv, hxv, hsm]
    · intro steps
      have ht : ((x.length : ℤ) - 1) = (0 : ℤ) := by rw [hL]; norm_num
      have hmin : min ((0 : ℤ)) ((steps : ℕ) : ℤ) = (0 : ℤ) := by omega
      simp only [acc_deltas_bptt_np, ht, hmin]
      simp [hdv, hyv, hsv, hxv, hsm]

/-- A concrete check that the hypotheses of the bounds theorem are
satisfiable: on the shortest possible input the call raises. -/
theorem acc_deltas_np_requires_two_steps_witness :
    pyget [[(0 : ℚ)], [0]] (-3) = none ∧
    acc_deltas_np rQ [0] [0] [[0]] [[(0 : ℚ)], [0]] = none :=
  (acc_deltas_np_requires_two_steps rQ [0] [0] [[0]] [[(0 : ℚ)], [0]] rfl).2.1 rfl

/-! C3: shape, row sums, recurrence and boundary row of `predict`. -/

theorem predictStates_length (r : RNN ℝ) :
    ∀ (x : List ℕ) (sp : List ℝ), (predictStates r x sp).length = x.length := by
  intro x
  induction x with
  | nil => intro sp; rfl
  | cons x0 rest ih => intro sp; simp [predictStates, ih]

theorem predictStep_length (r : RNN ℝ) (sp : List ℝ) (xt : ℕ)
    (hU : r.U.length = r.hidden_dims) (hV : r.V.length = r.hidden_dims) :
    (predictStep r sp xt).length = r.hidden_dims := by
  simp [predictStep, vecAdd, matvec, hU, hV]

theorem predictStates_row_length (r : RNN ℝ)
    (hU : r.U.length = r.hidden_dims) (hV : r.V.length = r.hidden_dims) :
    ∀ (x : List ℕ) (sp : List ℝ), ∀ row ∈ predictStates r x sp,
      row.length = r.hidden_dims := by
  intro x
  induction x with
  | nil => intro sp row hrow; simp [predictStates] at hrow
  | cons x0 rest ih =>
    intro sp row hrow
    simp only [predictStates, List.mem_cons] at hrow
    rcases hrow with h | h
    · rw [h]; exact predictStep_length r sp x0 hU hV
    · exact ih _ row h

theorem sum_map_div (l : List ℝ) (c : ℝ) :
    (l.map (fun z => z / c)).sum = l.sum / c := by
  induction l with
  | nil => simp
  | cons a l ih => simp [ih, add_div]

theorem softmax_length (v : List ℝ) : (softmax v).length = v.length := by
  simp [softmax]

theorem softmax_sum_eq_one (v : List ℝ) (hv : v ≠ []) : (softmax v).sum = 1 := by
  have hpos : 0 < ((v.map Real.exp).sum) := by
    apply List.sum_pos
    · intro a ha
      simp only [List.mem_map] at ha
      obtain ⟨b, _, rfl⟩ := ha
      exact Real.exp_pos b
    · simpa using hv
  have hmm : v.map (fun a => Real.exp a / (v.map Real.exp).sum)
      = (v.map Real.exp).map (fun z => z / (v.map Real.exp).sum) := by
    rw [List.map_map]; rfl
  rw [softmax, hmm, sum_map_div, div_self (ne_of_gt hpos)]

theorem predictStates_step (r : RNN ℝ) :
    ∀ (x : List ℕ) (t : ℕ) (sp sprev : List ℝ) (xt : ℕ),
      (predictStates r x sp).get? t = some sprev → x.get? (t + 1) = some xt →
      (predictStates r x sp).get? (t + 1) = some (predictStep r sprev xt) := by
  intro x
  induction x with
  | nil => intro t sp sprev xt h1 h2; simp at h2
  | cons x0 rest ih =>
    intro t sp sprev xt h1 h2
    cases t with
    | zero =>
      cases rest with
      | nil => simp at h2
      | cons x1 r2 =>
        simp only [predictStates, List.get?_cons_zero, Option.some.injEq] at h1
        simp only [List.get?_cons_succ, List.get?_cons_zero, Option.some.injEq] at h2
        simp [predictStates, ← h1, ← h2]
    | succ t =>
      simp only [predictStates, List.get?_cons_succ] at h1 h2 ⊢
      exact ih t _ sprev xt h1 h2

/-- C3.  For a sequence `x` of length `L`, `predict(x)` returns `y` with `L`
rows of dimension `out_vocab_size`, each equal to `softmax(W·s[t])` and
summing to 1 (exactly, in the real model), and `s` with `L+1` rows of
dimension `hidden_dims` satisfying `s[t] = sigmoid(U·s[t-1] + V·onehot(x[t]))`
where the wrapped boundary row `s[-1]` is the zero vector (rnn-q5.py lines
64-88).  `predict` is a pure function of the parameters, so it leaves `U`,
`V`, `W` and the accumulators unchanged by construction. -/
theorem predict_spec (r : RNN ℝ) (x : List ℕ)
    (hU : r.U.length = r.hidden_dims) (hV : r.V.length = r.hidden_dims)
    (hW : r.W.length = r.out_vocab_size) (hO : 0 < r.out_vocab_size) :
    (predict r x).1.length = x.length ∧
    (predict r x).2.length = x.length + 1 ∧
    (∀ row ∈ (predict r x).1, row.length = r.out_vocab_size ∧ row.sum = 1) ∧
    (∀ row ∈ (predict r x).2, row.length = r.hidden_dims) ∧
    pyget (predict r x).2 (-1) = some (List.replicate r.hidden_dims 0) ∧
    (∀ t : ℕ, t < x.length → ∀ st, pyget (predict r x).2 (t : ℤ) = some st →
       pyget (predict r x).1 (t : ℤ) = some (softmax (matvec r.W st))) ∧
    (∀ t : ℕ, t < x.length → ∀ sprev xt,
       pyget (predict r x).2 ((t : ℤ) - 1) = some sprev → x.get? t = some xt →
       pyget (predict r x).2 (t : ℤ) = some (predictStep r sprev xt)) := by
  have hsl := predictStates_length r x (List.replicate r.hidden_dims 0)
  have hy : (predict r x).1
      = (predictStates r x (List.replicate r.hidden_dims 0)).map
          (fun st => softmax (matvec r.W st)) := rfl
  have hss : (predict r x).2
      = predictStates r x (List.replicate r.hidden_dims 0)
          ++ [List.replicate r.hidden_dims 0] := rfl
  have hbnd : pyget (predict r x).2 (-1)
      = some (List.replicate r.hidden_dims 0) := by
    rw [hss]
    have hlen2 : (predictStates r x (List.replicate r.hidden_dims 0)
        ++ [List.replicate r.hidden_dims 0]).length = x.length + 1 := by
      rw [List.length_append, hsl]; rfl
    have h1 := pyget_neg (predictStates r x (List.replicate r.hidden_dims 0)
        ++ [List.replicate r.hidden_dims 0]) 1 (by omega) (by omega)
    rw [show ((1:ℕ) : ℤ) = (1 : ℤ) from rfl] at h1
    rw [h1, hlen2]
    rw [show x.length + 1 - 1 = (predictStates r x
        (List.replicate r.hidden_dims 0)).length by omega]
    exact List.get?_concat_length _ _
  refine ⟨?_, ?_, ?_, ?_, ?_, ?_, ?_⟩
  · rw [hy, List.length_map, hsl]
  · rw [hss, List.length_append, hsl]; rfl
  · intro row hrow
    rw [hy] at hrow
    simp only [List.mem_map] at hrow
    obtain ⟨st, _, rfl⟩ := hrow
    constructor
    · rw [softmax_length]; simp [matvec, hW]
    · apply softmax_sum_eq_one
      have hlen : (matvec r.W st).length = r.out_vocab_size := by simp [matvec, hW]
      intro hnil
      rw [hnil] at hlen
      simp at hlen
      omega
  · intro row hrow
    rw [hss] at hrow
    rcases List.mem_append.mp hrow with h | h
    · exact predictStates_row_length r hU hV x _ row h
    · simp only [List.mem_singleton] at h
      rw [h, List.length_replicate]
  · exact hbnd
  · intro t ht st hst
    rw [hss, pyget_natCast, List.get?_append (by rw [hsl]; exact ht)] at hst
    rw [hy, pyget_natCast, List.get?_map, hst]
    rfl
  · intro t ht sprev xt hsp hxt
    rw [hss, pyget_natCast, List.get?_append (by rw [hsl]; omega)]
    cases t with
    | zero =>
      norm_num at hsp
      rw [hbnd] at hsp
      cases hsp
      cases x with
      | nil => simp at ht
      | cons x0 rest =>
        simp only [List.get?_cons_zero, Option.some.injEq] at hxt
        simp [predictStates, ← hxt]
    | succ t =>
      have hcast : ((Nat.succ t : ℕ) : ℤ) - 1 = ((t : ℕ) : ℤ) := by omega
      rw [hcast, hss, pyget_natCast,
        List.get?_append (by rw [hsl]; omega)] at hsp
      exact predictStates_step r x t _ sprev xt hsp hxt

/-- A concrete RNN over ℝ used to check satisfiability of the shape
hypotheses. -/
noncomputable def rR : RNN ℝ := ⟨1, 1, 1, [[0]], [[0]], [[0]], [[0]], [[0]], [[0]]⟩

theorem predict_spec_witness :
    (predict rR [0]).1.length = 1 ∧ (predict rR [0]).2.length = 2 :=
  ⟨(predict_spec rR [0] rfl rfl rfl (by decide)).1,
   (predict_spec rR [0] rfl rfl rfl (by decide)).2.1⟩

/-! C8: `compute_mean_loss` is the length-weighted mean of `compute_loss`. -/

theorem predict_y_length (r : RNN ℝ) (x : List ℕ) :
    (predict r x).1.length = x.length := by
  have hy : (predict r x).1
      = (predictStates r x (List.replicate r.hidden_dims 0)).map
          (fun st => softmax (matvec r.W st)) := rfl
  rw [hy, List.length_map, predictStates_length]

theorem loss_fold (d : List ℕ) (y : List (List ℝ)) (ov : ℕ) :
    ∀ (n : ℕ), n ≤ d.length → n ≤ y.length → ∀ a : ℝ,
      (List.range n).foldlM (fun (loss : ℝ) (t : ℕ) => do
          let dt ← pyget d (t : ℤ)
          let yt ← pyget y (t : ℤ)
          pure (loss - dotV (make_onehot dt ov) (yt.map Real.log))) a
        = some (a - ((List.range n).map (fun t =>
            dotV (make_onehot (d.getD t 0) ov) ((y.getD t []).map Real.log))).sum) := by
  intro n
  induction n with
  | zero => intro _ _ a; simp
  | succ n ih =>
    intro h1 h2 a
    rw [List.range_succ, List.foldlM_append, ih (by omega) (by omega) a]
    have hd : pyget d ((n : ℕ) : ℤ) = some (d.getD n 0) := by
      rw [pyget_natCast, List.get?_eq_get (by omega : n < d.length),
        List.getD_eq_get d 0 (by omega : n < d.length)]
    have hy2 : pyget y ((n : ℕ) : ℤ) = some (y.getD n []) := by
      rw [pyget_natCast, List.get?_eq_get (by omega : n < y.length),
        List.getD_eq_get y [] (by omega : n < y.length)]
    simp [List.foldlM, hd, hy2, List.range_succ]
    ring

theorem compute_loss_eq_lossSum (r : RNN ℝ) (x d : List ℕ)
    (hxd : x.length ≤ d.length) :
    compute_loss r x d = some (lossSum r x d) := by
  have hyl : (predict r x).1.length = x.length := predict_y_length r x
  rw [compute_loss,
    loss_fold d (predict r x).1 r.out_vocab_size x.length hxd (by omega) 0]
  simp [lossSum, zero_sub]

theorem range_map_getD {β γ : Type} (l : List β) (d0 : β) (f : β → γ) :
    (List.range l.length).map (fun i => f (l.getD i d0)) = l.map f := by
  induction l with
  | nil => simp
  | cons b l ih =>
    rw [show (b :: l).length = l.length + 1 from rfl, List.range_succ_eq_map,
      List.map_cons, List.map_map]
    rw [show ((fun i => f ((b :: l).getD i d0)) ∘ Nat.succ)
        = (fun i => f (l.getD i d0)) from rfl]
    rw [ih]
    rfl

theorem mean_fold (r : RNN ℝ) (X D : List (List ℕ)) (hlen : X.length ≤ D.length)
    (hxd : ∀ i, (X.getD i []).length ≤ (D.getD i []).length) :
    ∀ (n : ℕ), n ≤ X.length → ∀ (tot : ℕ) (a : ℝ),
      (List.range n).foldlM (fun (st : ℕ × ℝ) (i : ℕ) => do
          let xi ← pyget X (i : ℤ)
          let di ← pyget D (i : ℤ)
          let l ← compute_loss r xi di
          pure (st.1 + xi.length, st.2 + l)) (tot, a)
        = some (tot + ((List.range n).map (fun i => (X.getD i []).length)).sum,
                a + ((List.range n).map (fun i =>
                  lossSum r (X.getD i []) (D.getD i []))).sum) := by
  intro n
  induction n with
  | zero => intro _ tot a; simp
  | succ n ih =>
    intro h1 tot a
    rw [List.range_succ, List.foldlM_append, ih (by omega) tot a]
    have hX : pyget X ((n : ℕ) : ℤ) = some (X.getD n []) := by
      rw [pyget_natCast, List.get?_eq_get (by omega : n < X.length),
        List.getD_eq_get X [] (by omega : n < X.length)]
    have hD : pyget D ((n : ℕ) : ℤ) = some (D.getD n []) := by
      rw [pyget_natCast, List.get?_eq_get (by omega : n < D.length),
        List.getD_eq_get D [] (by omega : n < D.length)]
    have hL : compute_loss r (X.getD n []) (D.getD n [])
        = some (lossSum r (X.getD n []) (D.getD n [])) :=
      compute_loss_eq_lossSum r _ _ (hxd n)
    simp only [List.getD_eq_getElem?_getD] at hL
    simp [List.foldlM, hX, hD, hL, List.range_succ]
    constructor
    · omega
    · ring

/-- C8.  For equal-length corpora with per-sequence targets at least as long
as their inputs and a non-zero total token count, `compute_mean_loss(X, D)`
equals the sum of `compute_loss(X[i], D[i])` over all `i` divided by the total
token count `Σ len(X[i])` — the length-weighted mean, not the arithmetic mean
of per-sequence losses (rnn-q5.py lines 316-335 and 225-247). -/
theorem compute_mean_loss_spec (r : RNN ℝ) (X D : List (List ℕ))
    (hlen : X.length = D.length)
    (hxd : ∀ i, (X.getD i []).length ≤ (D.getD i []).length)
    (htot : (X.map List.length).sum ≠ 0) :
    (∀ i, i < X.length →
        compute_loss r (X.getD i []) (D.getD i [])
          = some (lossSum r (X.getD i []) (D.getD i []))) ∧
    compute_mean_loss r X D
      = some ((((List.range X.length).map (fun i =>
            lossSum r (X.getD i []) (D.getD i []))).sum)
          / (((X.map List.length).sum : ℕ) : ℝ)) := by
  constructor
  · intro i _
    exact compute_loss_eq_lossSum r _ _ (hxd i)
  · rw [compute_mean_loss,
      mean_fold r X D (le_of_eq hlen) hxd X.length (le_refl _) 0 0]
    have hlens : ((List.range X.length).map (fun i => (X.getD i []).length)).sum
        = (X.map List.length).sum := by
      rw [range_map_getD]
    simp only [Option.bind_eq_bind, Option.some_bind, zero_add]
    rw [hlens]
    rfl

theorem compute_mean_loss_spec_witness :
    compute_mean_loss rR [[0]] [[0]]
      = some ((((List.range ([[0]] : List (List ℕ)).length).map (fun i =>
            lossSum rR ([[0]].getD i []) ([[0]].getD i []))).sum)
          / (((([[0]] : List (List ℕ)).map List.length).sum : ℕ) : ℝ)) :=
  (compute_mean_loss_spec rR [[0]] [[0]] rfl (fun _ => le_refl _) (by decide)).2

end RnnQ5
